import Mathlib

/-!
Verification of the diarization segment-smoothing pipeline of
`smooth_segments.py`.

Times are modelled as rationals (the source uses floating point only for
`+`, `-`, `max`, `min` and comparisons on small decimal literals).  A
speaker is an opaque equality-comparable identifier, here a `String`
(the CSV loader stores it as a string).  The Python field `end` is
rendered as `stop` because `end` is a Lean keyword.
-/

/-- A speaker turn, `{"speaker": ..., "start": ..., "end": ...}` in the
source (`stop` models the `end` field). -/
structure Seg where
  speaker : String
  start : ℚ
  stop : ℚ
  deriving DecidableEq, Repr, Inhabited

/-- A transcribed utterance, `{"start": ..., "end": ..., "text": ...}`
in the ASR JSON (`stop` models the `end` field). -/
structure Utt where
  start : ℚ
  stop : ℚ
  text : String
  deriving DecidableEq, Repr, Inhabited

/-- `dur(s) = s["end"] - s["start"]` (smooth_segments.py line 22). -/
def dur (s : Seg) : ℚ := s.stop - s.start

/-- `MIN_GAP_SAME_SPK = 0.6` (line 4). -/
def MIN_GAP_SAME_SPK : ℚ := 0.6

/-- `SHORT_INTRUSION = 1.2` (line 5). -/
def SHORT_INTRUSION : ℚ := 1.2

/-- `COLLAR = 0.2` (line 6). -/
def COLLAR : ℚ := 0.2

/-- `MIN_SEG_DURATION = 2.5` (line 7). -/
def MIN_SEG_DURATION : ℚ := 2.5

/-- `FILLERS` (lines 9-10); the Python set is modelled as a list used
only through membership. -/
def FILLERS : List String :=
  ["嗯", "啊", "呃", "额", "对", "好", "行", "ok", "okay", "yes", "yeah",
   "right", "嗯哼", "哈哈", "lol", "哦", "哇", "噢", "唔", "嗷"]

/-- The character set of `t.strip("，。！？,.!?… ")` (line 31). -/
def stripChars : List Char := "，。！？,.!?… ".toList

/-- Python `t.strip(chars)`: drop characters of the set from both ends. -/
def pyStrip (cs : List Char) : List Char :=
  ((cs.dropWhile (fun c => stripChars.contains c)).reverse.dropWhile
    (fun c => stripChars.contains c)).reverse

/-- Python `str.split()` with no argument: split on whitespace runs,
never producing empty chunks.  `acc` holds the current chunk reversed. -/
def splitWsGo : List Char → List Char → List (List Char)
  | [], acc => if acc.isEmpty then [] else [acc.reverse]
  | c :: cs, acc =>
    if c.isWhitespace then
      if acc.isEmpty then splitWsGo cs [] else acc.reverse :: splitWsGo cs []
    else
      splitWsGo cs (c :: acc)

/-- Python `t.lower()`, applied characterwise (the fillers compared are
ASCII or CJK, where per-character lowering agrees with Python). -/
def pyLower (t : String) : String := String.mk (t.toList.map Char.toLower)

/-- Python `" ".join(txts)`. -/
def joinSpace : List String → String
  | [] => ""
  | [t] => t
  | t :: u :: rest => t ++ " " ++ joinSpace (u :: rest)

/-- The token list of line 31-32: split the text on whitespace, strip the
punctuation set from each token, drop empty tokens.  (The source's outer
`.strip()` of whitespace on the joined text is absorbed by the
whitespace split, which never yields empty chunks.) -/
def tokensOf (text : String) : List String :=
  ((splitWsGo text.toList []).map (fun cs => String.mk (pyStrip cs))).filter
    (fun t => !t.isEmpty)

/-- The selection loop of `text_stats` (lines 26-29): keep `u["text"]`
unless `u["end"] <= s or u["start"] >= e`. -/
def collectTexts : List Utt → ℚ → ℚ → List String
  | [], _, _ => []
  | u :: rest, s, e =>
    if u.stop ≤ s ∨ e ≤ u.start then collectTexts rest s e
    else u.text :: collectTexts rest s e

/-- `text_stats(asr, s, e)` (lines 24-37): token count and filler ratio
of the utterances overlapping `[s, e)`, with ratio `1.0` when there are
no tokens. -/
def text_stats (asr : List Utt) (s e : ℚ) : ℕ × ℚ :=
  let text := joinSpace (collectTexts asr s e)
  let tokens := tokensOf text
  if tokens.isEmpty then (tokens.length, 1)
  else
    (tokens.length,
      (((tokens.map (fun t => if FILLERS.contains (pyLower t) then (1 : ℕ) else 0)).sum : ℚ))
        / (tokens.length : ℚ))

/-- One step of `merge_same_speaker`'s loop (lines 41-45).  The
accumulator is the output in reverse, so its head is `out[-1]`. -/
def mssStep (out : List Seg) (s : Seg) : List Seg :=
  match out with
  | [] => [s]
  | prev :: rest =>
    if s.speaker = prev.speaker ∧ s.start - prev.stop < MIN_GAP_SAME_SPK then
      { prev with stop := max prev.stop s.stop } :: rest
    else
      s :: prev :: rest

/-- `merge_same_speaker(segs)` (lines 39-46). -/
def merge_same_speaker (segs : List Seg) : List Seg :=
  (segs.foldl mssStep []).reverse

/-- The loop of `swallow_intrusions` (lines 49-61).  The Python code
appends aliases of the mutable dicts of `segs` to `out` and keeps
mutating them afterwards, so the output is modelled as the list of
appended indices (`out`), resolved against the final state of `segs`
once the loop is done.  `List.set` models in-place mutation of the dict
at a slot; the slot structure itself is never changed.
The loop is phrased with explicit `fuel` so that it is structurally
recursive (hence computable by reduction); one unit of fuel is spent per
iteration and `i` grows by at least one per iteration, so any
`fuel ≥ segs.length - i` runs the loop to completion exactly as the
Python `while` does.  `swallow_intrusions` supplies `fuel = segs.length`. -/
def swallowGo (asr : List Utt) : ℕ → List Seg → List ℕ → ℕ → List Seg × List ℕ
  | 0, segs, out, _ => (segs, out)
  | fuel + 1, segs, out, i =>
    if i < segs.length then
      if 0 < i ∧ i + 1 < segs.length then
        let cur := segs.getD i default
        let L := segs.getD (i - 1) default
        let R := segs.getD (i + 1) default
        if cur.speaker ≠ L.speaker ∧ cur.speaker ≠ R.speaker ∧
            dur cur ≤ SHORT_INTRUSION ∧
            ((text_stats asr cur.start cur.stop).1 ≤ 3 ∨
              (0.5 : ℚ) ≤ (text_stats asr cur.start cur.stop).2) then
          if L.speaker = R.speaker then
            swallowGo asr fuel (segs.set (i - 1) { L with stop := R.stop }) out (i + 2)
          else if dur R ≤ dur L then
            swallowGo asr fuel (segs.set (i - 1) { L with stop := max L.stop cur.stop }) out (i + 1)
          else
            swallowGo asr fuel (segs.set (i + 1) { R with start := min R.start cur.start }) out (i + 1)
        else
          swallowGo asr fuel segs (out ++ [i]) (i + 1)
      else
        swallowGo asr fuel segs (out ++ [i]) (i + 1)
    else
      (segs, out)

/-- `swallow_intrusions(segs, asr)` (lines 48-62). -/
def swallow_intrusions (segs : List Seg) (asr : List Utt) : List Seg :=
  let r := swallowGo asr segs.length segs [] 0
  r.2.map (fun j => r.1.getD j default)

/-- One step of `apply_collar`'s loop (lines 67-72); accumulator
reversed, head is `out[-1]`. -/
def collarStep (out : List Seg) (s : Seg) : List Seg :=
  match out with
  | [] => [s]
  | prev :: rest =>
    if s.start - prev.stop < COLLAR then
      if dur s ≤ dur prev then { prev with stop := max prev.stop s.stop } :: rest
      else { s with start := min s.start prev.start } :: rest
    else
      s :: prev :: rest

/-- `apply_collar(segs)` (lines 64-73).  The source starts with
`out=[segs[0].copy()]`, which raises `IndexError` on an empty input;
that exception is modelled as `none`. -/
def apply_collar (segs : List Seg) : Option (List Seg) :=
  match segs with
  | [] => none
  | s0 :: rest => some ((rest.foldl collarStep [s0]).reverse)

/-- One step of `enforce_min_duration`'s loop (lines 77-81);
accumulator reversed, head is `out[-1]`. -/
def emdStep (out : List Seg) (s : Seg) : List Seg :=
  match out with
  | [] => [s]
  | prev :: rest =>
    if dur s < MIN_SEG_DURATION then { prev with stop := max prev.stop s.stop } :: rest
    else s :: prev :: rest

/-- `enforce_min_duration(segs)` (lines 75-82). -/
def enforce_min_duration (segs : List Seg) : List Seg :=
  (segs.foldl emdStep []).reverse

/-- The processing sequence of `main` (lines 87-91), between CSV/JSON
loading and CSV writing: `merge_same_speaker`, `swallow_intrusions`,
`apply_collar`, `enforce_min_duration`, `merge_same_speaker`.  The
`IndexError` of `apply_collar` on an empty sequence propagates as
`none`. -/
def smooth_pipeline (segs : List Seg) (asr : List Utt) : Option (List Seg) :=
  match apply_collar (swallow_intrusions (merge_same_speaker segs) asr) with
  | none => none
  | some s3 => some (merge_same_speaker (enforce_min_duration s3))

/-- The input precondition "sorted by `start` ascending". -/
def SortedByStart (l : List Seg) : Prop :=
  List.Pairwise (fun a b => a.start ≤ b.start) l

instance : DecidablePred SortedByStart := fun l =>
  inferInstanceAs (Decidable (List.Pairwise _ l))

/-- The adjacency the same-speaker merger forbids between a turn `a` and
the next turn `b`: identical speaker and gap below the threshold. -/
def okGap (a b : Seg) : Prop :=
  ¬(b.speaker = a.speaker ∧ b.start - a.stop < MIN_GAP_SAME_SPK)

instance : DecidableRel okGap := fun a b =>
  inferInstanceAs
    (Decidable ¬(b.speaker = a.speaker ∧ b.start - a.stop < MIN_GAP_SAME_SPK))

/-! ## Lemmas about `merge_same_speaker`

The fold accumulator is the output in reverse, so statements about
consecutive output turns become statements about `flip`ped chains on the
accumulator. -/

lemma mssStep_ne_nil (out : List Seg) (s : Seg) : mssStep out s ≠ [] := by
  cases out with
  | nil => simp [mssStep]
  | cons prev rest =>
    by_cases h : s.speaker = prev.speaker ∧ s.start - prev.stop < MIN_GAP_SAME_SPK <;>
      simp [mssStep, h]

lemma foldl_mssStep_ne_nil (l acc : List Seg) (h : acc ≠ []) :
    l.foldl mssStep acc ≠ [] := by
  induction l generalizing acc with
  | nil => exact h
  | cons s l ih => exact ih _ (mssStep_ne_nil _ _)

lemma merge_same_speaker_ne_nil (s : Seg) (l : List Seg) :
    merge_same_speaker (s :: l) ≠ [] := by
  unfold merge_same_speaker
  intro h
  rw [List.reverse_eq_nil_iff, List.foldl_cons] at h
  exact foldl_mssStep_ne_nil l (mssStep [] s) (mssStep_ne_nil _ _) h

lemma chain'_flip_okGap_foldl (l acc : List Seg)
    (h : List.Chain' (flip okGap) acc) :
    List.Chain' (flip okGap) (l.foldl mssStep acc) := by
  induction l generalizing acc with
  | nil => exact h
  | cons s l ih =>
    refine ih _ ?_
    cases acc with
    | nil => simp [mssStep]
    | cons prev rest =>
      by_cases hc : s.speaker = prev.speaker ∧ s.start - prev.stop < MIN_GAP_SAME_SPK
      · simp only [mssStep, if_pos hc]
        cases rest with
        | nil => simp
        | cons b rest' =>
          rw [List.chain'_cons] at h ⊢
          exact ⟨h.1, h.2⟩
      · simp only [mssStep, if_neg hc]
        rw [List.chain'_cons]
        exact ⟨hc, h⟩

/-- Consecutive turns in the output of `merge_same_speaker` never have
the same speaker with a gap below `MIN_GAP_SAME_SPK`: the merge
condition was false at the moment of appending, and later merges change
neither member of an already consecutive pair (only the last turn's
`stop` ever moves). -/
lemma chain'_okGap_merge (l : List Seg) :
    List.Chain' okGap (merge_same_speaker l) := by
  unfold merge_same_speaker
  rw [List.chain'_reverse]
  exact chain'_flip_okGap_foldl _ _ (by simp)

lemma foldl_mssStep_of_chain (l : List Seg) (prev : Seg) (acc : List Seg)
    (h : List.Chain' okGap (prev :: l)) :
    l.foldl mssStep (prev :: acc) = l.reverse ++ prev :: acc := by
  induction l generalizing prev acc with
  | nil => simp
  | cons b l ih =>
    rw [List.chain'_cons] at h
    simp only [List.foldl_cons, mssStep, if_neg h.1]
    rw [ih b (prev :: acc) h.2]
    simp

/-- A sequence with no illegal same-speaker adjacency passes through
`merge_same_speaker` unchanged. -/
lemma merge_eq_self_of_chain (l : List Seg) (h : List.Chain' okGap l) :
    merge_same_speaker l = l := by
  cases l with
  | nil => rfl
  | cons x xs =>
    unfold merge_same_speaker
    rw [List.foldl_cons]
    show (xs.foldl mssStep (mssStep [] x)).reverse = x :: xs
    simp only [mssStep]
    rw [foldl_mssStep_of_chain xs x [] h]
    simp

/-! ## Claim theorems (first batch) -/

/-- C6: `merge_same_speaker` is idempotent: applying it twice yields the
same output sequence as applying it once, for every input. -/
theorem merge_same_speaker_idempotent (segs : List Seg) :
    merge_same_speaker (merge_same_speaker segs) = merge_same_speaker segs :=
  merge_eq_self_of_chain _ (chain'_okGap_merge segs)

/-- C1: for every input sorted by start, if the full pipeline produces
an output, no two consecutive output turns have identical speaker and a
gap `next.start - prev.stop` strictly below `MIN_GAP_SAME_SPK` (the
final re-merge enforces this). -/
theorem pipeline_no_illegal_adjacency (segs : List Seg) (asr : List Utt)
    (out : List Seg) (hs : SortedByStart segs)
    (h : smooth_pipeline segs asr = some out) :
    List.Chain' okGap out := by
  rcases hm : apply_collar (swallow_intrusions (merge_same_speaker segs) asr) with _ | s3
  · rw [smooth_pipeline, hm] at h; cases h
  · rw [smooth_pipeline, hm] at h
    obtain rfl : merge_same_speaker (enforce_min_duration s3) = out := by
      injection h
    exact chain'_okGap_merge _

/-- Witness for C1 at a concrete input. -/
theorem pipeline_no_illegal_adjacency_witness :
    SortedByStart [⟨"1", 0, 3⟩] ∧ List.Chain' okGap [⟨"1", 0, 3⟩] :=
  ⟨by decide,
    pipeline_no_illegal_adjacency [⟨"1", 0, 3⟩] [] [⟨"1", 0, 3⟩] (by decide)
      (by with_unfolding_all exact of_decide_eq_true rfl)⟩

/-- C3 (code bug): on the empty input turn sequence the pipeline does
NOT return the empty sequence: `apply_collar` evaluates `segs[0]` on an
empty list and raises `IndexError` (modelled as `none`), so the run
fails instead of being a no-op. -/
theorem pipeline_empty_input_fails : smooth_pipeline [] [] = none := by
  with_unfolding_all exact of_decide_eq_true rfl

/-- C9 (code bug): an input containing a turn with `end <= start` is
processed silently — no validation exists, no `InvalidIntervalError` is
raised, and a zero-duration turn reaches the output. -/
theorem pipeline_accepts_malformed_interval :
    smooth_pipeline [⟨"1", 5, 5⟩] [] = some [⟨"1", 5, 5⟩] ∧
      dur ⟨"1", 5, 5⟩ = 0 := by
  constructor
  · with_unfolding_all exact of_decide_eq_true rfl
  · with_unfolding_all exact of_decide_eq_true rfl

/-- C5: on turns `A(1, 0-5)`, `B(2, 5-5.8)`, `C(1, 5.8-10)` with the
single utterance `{5, 5.8, "嗯"}`, the full pipeline absorbs `B` and
yields exactly one output turn, speaker `1` covering `0-10`. -/
theorem pipeline_swallow_literal_case :
    smooth_pipeline [⟨"1", 0, 5⟩, ⟨"2", 5, 5.8⟩, ⟨"1", 5.8, 10⟩]
      [⟨5, 5.8, "嗯"⟩] = some [⟨"1", 0, 10⟩] := by
  with_unfolding_all exact of_decide_eq_true rfl

/-- C8: each `apply_collar` step merges the next turn `s` into the last
output turn `prev` whenever `s.start - prev.stop < COLLAR` (negative
gaps included), the longer turn keeping its speaker label — `prev`
extended when `dur prev ≥ dur s`, otherwise `s` (with
`start := min s.start prev.start`) replacing `prev`; otherwise `s` is
appended.  On `X(1, 0-3)`, `Y(2, 3.1-3.3)` the result is the single
turn `(1, 0-3.3)`. -/
theorem apply_collar_step_and_literal :
    (∀ (prev : Seg) (rest : List Seg) (s : Seg),
      collarStep (prev :: rest) s =
        if s.start - prev.stop < COLLAR then
          if dur prev ≥ dur s then { prev with stop := max prev.stop s.stop } :: rest
          else { s with start := min s.start prev.start } :: rest
        else s :: prev :: rest) ∧
    apply_collar [⟨"1", 0, 3⟩, ⟨"2", 3.1, 3.3⟩] = some [⟨"1", 0, 3.3⟩] := by
  constructor
  · intro prev rest s
    simp only [collarStep, ge_iff_le]
  · with_unfolding_all exact of_decide_eq_true rfl

/-! ## C7: the text analyzer against the spec's description -/

/-- The spec's description of `TextStatisticsAnalyzer` (§4.2), stated
independently of the loop in the source: select exactly the utterances
overlapping the window (`utterance.end <= windowStart` or
`utterance.start >= windowEnd` excludes, boundaries touching do not
overlap), concatenate their texts in order with single spaces, split on
whitespace, strip the fixed punctuation set, drop empty tokens, and pair
the token count with the fraction of tokens whose case-folded form is a
filler word — `1.0` when there are no tokens. -/
def text_stats_spec (asr : List Utt) (ws we : ℚ) : ℕ × ℚ :=
  let selected := asr.filter (fun u => !(decide (u.stop ≤ ws) || decide (we ≤ u.start)))
  let tokens := tokensOf (joinSpace (selected.map Utt.text))
  let n := tokens.length
  (n, if n = 0 then 1
      else (tokens.countP (fun t => decide (pyLower t ∈ FILLERS)) : ℚ) / (n : ℚ))

lemma collectTexts_eq_filter (asr : List Utt) (s e : ℚ) :
    collectTexts asr s e =
      (asr.filter (fun u => !(decide (u.stop ≤ s) || decide (e ≤ u.start)))).map Utt.text := by
  induction asr with
  | nil => rfl
  | cons u rest ih =>
    rcases Decidable.em (u.stop ≤ s ∨ e ≤ u.start) with h | h
    · rw [collectTexts, if_pos h, List.filter_cons, ih]
      have hb : (!(decide (u.stop ≤ s) || decide (e ≤ u.start))) = false := by
        rcases h with h | h <;> simp [h]
      rw [hb]
      simp
    · rw [collectTexts, if_neg h, List.filter_cons]
      push_neg at h
      have hb : (!(decide (u.stop ≤ s) || decide (e ≤ u.start))) = true := by
        simp [not_le.mpr h.1, not_le.mpr h.2]
      rw [hb]
      simp [ih]

lemma sum_indicator_eq_countP (p : String → Bool) (l : List String) :
    (l.map (fun t => if p t then (1 : ℕ) else 0)).sum = l.countP p := by
  induction l with
  | nil => rfl
  | cons t l ih =>
    by_cases h : p t <;> simp [h, ih, List.countP_cons, Nat.add_comm]

lemma countP_contains_eq_countP_mem (l : List String) :
    (l.countP fun t => FILLERS.contains (pyLower t)) =
      l.countP fun t => decide (pyLower t ∈ FILLERS) :=
  List.countP_congr fun t _ => by simp [List.contains, List.elem_eq_mem]

/-- C7: `text_stats` computes exactly what the spec describes: the
half-open overlap selection, space-joined then whitespace-split and
punctuation-stripped tokens, and the filler fraction with the
`tokenCount = 0 → fillerRatio = 1.0` convention. -/
theorem text_stats_eq_spec (asr : List Utt) (ws we : ℚ) :
    text_stats asr ws we = text_stats_spec asr ws we := by
  unfold text_stats text_stats_spec
  dsimp only
  rw [collectTexts_eq_filter]
  rcases Decidable.em
      (tokensOf (joinSpace
        ((asr.filter fun u => !(decide (u.stop ≤ ws) || decide (we ≤ u.start))).map
          Utt.text)) = []) with h | h
  · rw [if_pos (by rw [List.isEmpty_iff]; exact h),
      if_pos (by rw [List.length_eq_zero]; exact h)]
  · rw [if_neg (by rw [List.isEmpty_iff]; exact h),
      if_neg (by rw [List.length_eq_zero]; exact h)]
    refine Prod.ext rfl ?_
    rw [sum_indicator_eq_countP, countP_contains_eq_countP_mem]

/-! ## C2: minimum duration, except possibly the head

In the reversed accumulator the output's head is the accumulator's LAST
element, so "all output turns except the first" is "all accumulator
elements except the last", i.e. all of `dropLast`. -/

lemma foldl_emdStep_dropLast (l : List Seg) (acc : List Seg)
    (hacc : ∀ x ∈ acc.dropLast, MIN_SEG_DURATION ≤ dur x) :
    ∀ x ∈ (l.foldl emdStep acc).dropLast, MIN_SEG_DURATION ≤ dur x := by
  induction l generalizing acc with
  | nil => exact hacc
  | cons s l ih =>
    refine ih _ ?_
    cases acc with
    | nil => simp [emdStep]
    | cons prev rest =>
      by_cases hd : dur s < MIN_SEG_DURATION
      · simp only [emdStep, if_pos hd]
        cases rest with
        | nil => simp
        | cons b rest' =>
          rw [List.dropLast_cons₂] at hacc ⊢
          intro x hx
          rcases List.mem_cons.mp hx with rfl | hx
          · have hprev := hacc prev (List.mem_cons_self _ _)
            have : dur prev ≤ dur { prev with stop := max prev.stop s.stop } := by
              simp only [dur]
              have := le_max_left prev.stop s.stop
              linarith
            linarith
          · exact hacc x (List.mem_cons_of_mem _ hx)
      · simp only [emdStep, if_neg hd]
        cases rest with
        | nil =>
          rw [List.dropLast_cons₂]
          intro x hx
          rcases List.mem_cons.mp hx with rfl | hx
          · exact not_lt.mp hd
          · simp at hx
        | cons b rest' =>
          rw [List.dropLast_cons₂]
          intro x hx
          rcases List.mem_cons.mp hx with rfl | hx
          · exact not_lt.mp hd
          · exact hacc x hx

lemma enforce_min_duration_tail (segs : List Seg) :
    ∀ x ∈ (enforce_min_duration segs).tail, MIN_SEG_DURATION ≤ dur x := by
  unfold enforce_min_duration
  rw [List.tail_reverse]
  intro x hx
  exact foldl_emdStep_dropLast segs [] (by simp) x (List.mem_reverse.mp hx)

lemma foldl_mssStep_dropLast (l : List Seg) (acc : List Seg)
    (hl : ∀ x ∈ l, MIN_SEG_DURATION ≤ dur x)
    (hacc : ∀ x ∈ acc.dropLast, MIN_SEG_DURATION ≤ dur x) :
    ∀ x ∈ (l.foldl mssStep acc).dropLast, MIN_SEG_DURATION ≤ dur x := by
  induction l generalizing acc with
  | nil => exact hacc
  | cons s l ih =>
    have hs := hl s (List.mem_cons_self _ _)
    refine ih _ (fun x hx => hl x (List.mem_cons_of_mem _ hx)) ?_
    cases acc with
    | nil => simp [mssStep]
    | cons prev rest =>
      by_cases hc : s.speaker = prev.speaker ∧ s.start - prev.stop < MIN_GAP_SAME_SPK
      · simp only [mssStep, if_pos hc]
        cases rest with
        | nil => simp
        | cons b rest' =>
          rw [List.dropLast_cons₂] at hacc ⊢
          intro x hx
          rcases List.mem_cons.mp hx with rfl | hx
          · have hprev := hacc prev (List.mem_cons_self _ _)
            have : dur prev ≤ dur { prev with stop := max prev.stop s.stop } := by
              simp only [dur]
              have := le_max_left prev.stop s.stop
              linarith
            linarith
          · exact hacc x (List.mem_cons_of_mem _ hx)
      · simp only [mssStep, if_neg hc]
        cases rest with
        | nil =>
          rw [List.dropLast_cons₂]
          intro x hx
          rcases List.mem_cons.mp hx with rfl | hx
          · exact hs
          · simp at hx
        | cons b rest' =>
          rw [List.dropLast_cons₂]
          intro x hx
          rcases List.mem_cons.mp hx with rfl | hx
          · exact hs
          · exact hacc x hx

lemma merge_same_speaker_tail_min (l : List Seg)
    (h : ∀ x ∈ l.tail, MIN_SEG_DURATION ≤ dur x) :
    ∀ x ∈ (merge_same_speaker l).tail, MIN_SEG_DURATION ≤ dur x := by
  cases l with
  | nil => simp [merge_same_speaker]
  | cons a l =>
    unfold merge_same_speaker
    rw [List.foldl_cons, List.tail_reverse]
    intro x hx
    refine foldl_mssStep_dropLast l (mssStep [] a) (fun y hy => h y hy) ?_ x
      (List.mem_reverse.mp hx)
    simp [mssStep]

/-- C2: for every input sorted by start with positive durations, every
turn of the pipeline's output except possibly the first has duration at
least `MIN_SEG_DURATION` (the enforcement pass establishes this and the
final re-merge only grows durations; a short leading turn is kept). -/
theorem pipeline_min_duration_except_head (segs : List Seg) (asr : List Utt)
    (out : List Seg) (hs : SortedByStart segs)
    (hp : ∀ t ∈ segs, t.start < t.stop)
    (h : smooth_pipeline segs asr = some out) :
    ∀ t ∈ out.tail, MIN_SEG_DURATION ≤ dur t := by
  rcases hm : apply_collar (swallow_intrusions (merge_same_speaker segs) asr) with _ | s3
  · rw [smooth_pipeline, hm] at h; cases h
  · rw [smooth_pipeline, hm] at h
    obtain rfl : merge_same_speaker (enforce_min_duration s3) = out := by
      injection h
    exact merge_same_speaker_tail_min _ (enforce_min_duration_tail s3)

/-! ## Infrastructure for `swallow_intrusions` (used by C4 and C10)

The loop state is the evolving slot list `segs` plus the appended slot
indices `out`; the lemmas below track an arbitrary invariant of the slot
list through the three in-place updates, and the shape of the index
list. -/

/-- Every turn has strictly positive duration (`end > start`). -/
def PosAll (l : List Seg) : Prop := ∀ t ∈ l, t.start < t.stop

instance : DecidablePred PosAll := fun l =>
  inferInstanceAs (Decidable (∀ t ∈ l, t.start < t.stop))

/-- Every turn lies inside the time window `[A, B]`. -/
def InBounds (A B : ℚ) (l : List Seg) : Prop :=
  ∀ t ∈ l, A ≤ t.start ∧ t.stop ≤ B

instance (A B : ℚ) : DecidablePred (InBounds A B) := fun l =>
  inferInstanceAs (Decidable (∀ t ∈ l, A ≤ t.start ∧ t.stop ≤ B))

lemma getD_eq_getElem (l : List Seg) (n : ℕ) (h : n < l.length) :
    l.getD n default = l[n] := by
  rw [List.getD_eq_getElem?_getD, List.getElem?_eq_getElem h]
  rfl

/-- Master invariant lemma for the swallow loop: any property of the
slot list closed under the three in-place updates of the source (lines
57-59) is preserved by the whole loop. -/
lemma swallowGo_inv (asr : List Utt) (Inv : List Seg → Prop)
    (h1 : ∀ (segs : List Seg) (i : ℕ), 0 < i → i + 1 < segs.length → Inv segs →
      Inv (segs.set (i - 1)
        { segs.getD (i - 1) default with stop := (segs.getD (i + 1) default).stop }))
    (h2 : ∀ (segs : List Seg) (i : ℕ), 0 < i → i + 1 < segs.length → Inv segs →
      Inv (segs.set (i - 1)
        { segs.getD (i - 1) default with
            stop := max (segs.getD (i - 1) default).stop (segs.getD i default).stop }))
    (h3 : ∀ (segs : List Seg) (i : ℕ), 0 < i → i + 1 < segs.length → Inv segs →
      Inv (segs.set (i + 1)
        { segs.getD (i + 1) default with
            start := min (segs.getD (i + 1) default).start (segs.getD i default).start })) :
    ∀ (fuel : ℕ) (segs : List Seg) (out : List ℕ) (i : ℕ), Inv segs →
      Inv (swallowGo asr fuel segs out i).1 := by
  intro fuel
  induction fuel with
  | zero => intro segs out i h; exact h
  | succ fuel ih =>
    intro segs out i hInv
    rw [swallowGo]
    dsimp only
    by_cases hlen : i < segs.length
    · rw [if_pos hlen]
      by_cases hint : 0 < i ∧ i + 1 < segs.length
      · rw [if_pos hint]
        by_cases hcond : (segs.getD i default).speaker ≠ (segs.getD (i - 1) default).speaker ∧
            (segs.getD i default).speaker ≠ (segs.getD (i + 1) default).speaker ∧
            dur (segs.getD i default) ≤ SHORT_INTRUSION ∧
            ((text_stats asr (segs.getD i default).start (segs.getD i default).stop).1 ≤ 3 ∨
              (0.5 : ℚ) ≤ (text_stats asr (segs.getD i default).start (segs.getD i default).stop).2)
        · rw [if_pos hcond]
          by_cases hspk :
              (segs.getD (i - 1) default).speaker = (segs.getD (i + 1) default).speaker
          · rw [if_pos hspk]
            exact ih _ _ _ (h1 segs i hint.1 hint.2 hInv)
          · rw [if_neg hspk]
            by_cases hdur : dur (segs.getD (i + 1) default) ≤ dur (segs.getD (i - 1) default)
            · rw [if_pos hdur]
              exact ih _ _ _ (h2 segs i hint.1 hint.2 hInv)
            · rw [if_neg hdur]
              exact ih _ _ _ (h3 segs i hint.1 hint.2 hInv)
        · rw [if_neg hcond]
          exact ih _ _ _ hInv
      · rw [if_neg hint]
        exact ih _ _ _ hInv
    · rw [if_neg hlen]
      exact hInv

/-- The loop appends strictly increasing slot indices, all at least the
current cursor and below the (invariant) slot count. -/
lemma swallowGo_out (asr : List Utt) :
    ∀ (fuel : ℕ) (segs : List Seg) (out : List ℕ) (i : ℕ),
      ∃ extra, (swallowGo asr fuel segs out i).2 = out ++ extra ∧
        List.Pairwise (· < ·) extra ∧ ∀ j ∈ extra, i ≤ j ∧ j < segs.length := by
  intro fuel
  induction fuel with
  | zero =>
    intro segs out i
    exact ⟨[], by simp [swallowGo], .nil, by simp⟩
  | succ fuel ih =>
    intro segs out i
    rw [swallowGo]
    dsimp only
    by_cases hlen : i < segs.length
    · rw [if_pos hlen]
      by_cases hint : 0 < i ∧ i + 1 < segs.length
      · rw [if_pos hint]
        by_cases hcond : (segs.getD i default).speaker ≠ (segs.getD (i - 1) default).speaker ∧
            (segs.getD i default).speaker ≠ (segs.getD (i + 1) default).speaker ∧
            dur (segs.getD i default) ≤ SHORT_INTRUSION ∧
            ((text_stats asr (segs.getD i default).start (segs.getD i default).stop).1 ≤ 3 ∨
              (0.5 : ℚ) ≤ (text_stats asr (segs.getD i default).start (segs.getD i default).stop).2)
        · rw [if_pos hcond]
          by_cases hspk :
              (segs.getD (i - 1) default).speaker = (segs.getD (i + 1) default).speaker
          · rw [if_pos hspk]
            obtain ⟨extra, he, hp, hb⟩ := ih _ out (i + 2)
            refine ⟨extra, he, hp, fun j hj => ?_⟩
            obtain ⟨h1, h2⟩ := hb j hj
            rw [List.length_set] at h2
            exact ⟨by omega, h2⟩
          · rw [if_neg hspk]
            by_cases hdur : dur (segs.getD (i + 1) default) ≤ dur (segs.getD (i - 1) default)
            · rw [if_pos hdur]
              obtain ⟨extra, he, hp, hb⟩ := ih _ out (i + 1)
              refine ⟨extra, he, hp, fun j hj => ?_⟩
              obtain ⟨h1, h2⟩ := hb j hj
              rw [List.length_set] at h2
              exact ⟨by omega, h2⟩
            · rw [if_neg hdur]
              obtain ⟨extra, he, hp, hb⟩ := ih _ out (i + 1)
              refine ⟨extra, he, hp, fun j hj => ?_⟩
              obtain ⟨h1, h2⟩ := hb j hj
              rw [List.length_set] at h2
              exact ⟨by omega, h2⟩
        · rw [if_neg hcond]
          obtain ⟨extra, he, hp, hb⟩ := ih segs (out ++ [i]) (i + 1)
          refine ⟨i :: extra, by simpa using he, ?_, ?_⟩
          · exact List.pairwise_cons.mpr ⟨fun j hj => by have := (hb j hj).1; omega, hp⟩
          · intro j hj
            rcases List.mem_cons.mp hj with rfl | hj
            · exact ⟨le_refl _, hlen⟩
            · obtain ⟨h1, h2⟩ := hb j hj
              exact ⟨by omega, h2⟩
      · rw [if_neg hint]
        obtain ⟨extra, he, hp, hb⟩ := ih segs (out ++ [i]) (i + 1)
        refine ⟨i :: extra, by simpa using he, ?_, ?_⟩
        · exact List.pairwise_cons.mpr ⟨fun j hj => by have := (hb j hj).1; omega, hp⟩
        · intro j hj
          rcases List.mem_cons.mp hj with rfl | hj
          · exact ⟨le_refl _, hlen⟩
          · obtain ⟨h1, h2⟩ := hb j hj
            exact ⟨by omega, h2⟩
    · rw [if_neg hlen]
      exact ⟨[], by simp, .nil, by simp⟩

/-- Witness for C2 at a concrete input with a two-turn output. -/
theorem pipeline_min_duration_except_head_witness :
    SortedByStart [⟨"1", 0, 3⟩, ⟨"2", 10, 13⟩] ∧
      (∀ t ∈ ([⟨"1", 0, 3⟩, ⟨"2", 10, 13⟩] : List Seg), t.start < t.stop) ∧
      ∀ t ∈ ([⟨"1", 0, 3⟩, ⟨"2", 10, 13⟩] : List Seg).tail, MIN_SEG_DURATION ≤ dur t :=
  ⟨by with_unfolding_all exact of_decide_eq_true rfl,
    by with_unfolding_all exact of_decide_eq_true rfl,
    pipeline_min_duration_except_head [⟨"1", 0, 3⟩, ⟨"2", 10, 13⟩] [] _
      (by with_unfolding_all exact of_decide_eq_true rfl)
      (by with_unfolding_all exact of_decide_eq_true rfl)
      (by with_unfolding_all exact of_decide_eq_true rfl)⟩

/-! ## Invariants of the swallow loop: sortedness, positivity, bounds -/

lemma sorted_le (l : List Seg) (hs : SortedByStart l) (a b : ℕ)
    (ha : a < l.length) (hb : b < l.length) (hab : a ≤ b) :
    l[a].start ≤ l[b].start := by
  rcases Nat.lt_or_ge a b with h | h
  · rw [SortedByStart, List.pairwise_iff_getElem] at hs
    exact hs a b ha hb h
  · have : a = b := by omega
    subst this
    exact le_refl _

lemma sortedByStart_set_of (l : List Seg) (k : ℕ) (v : Seg)
    (hlo : ∀ (j : ℕ), j < l.length → j < k → ∀ (hj : j < l.length), l[j].start ≤ v.start)
    (hhi : ∀ (j : ℕ), j < l.length → k < j → ∀ (hj : j < l.length), v.start ≤ l[j].start)
    (hs : SortedByStart l) : SortedByStart (l.set k v) := by
  rw [SortedByStart, List.pairwise_iff_getElem] at hs ⊢
  intro a b ha hb hab
  rw [List.length_set] at ha hb
  simp only [List.getElem_set]
  split_ifs with h1 h2 h2
  · omega
  · exact hhi b hb (by omega) hb
  · exact hlo a ha (by omega) ha
  · exact hs a b ha hb hab

lemma swallowGo_fst_length (asr : List Utt) (fuel : ℕ) (segs : List Seg)
    (out : List ℕ) (i : ℕ) :
    (swallowGo asr fuel segs out i).1.length = segs.length :=
  swallowGo_inv asr (fun l => l.length = segs.length)
    (fun _ _ _ _ h => by simpa [List.length_set] using h)
    (fun _ _ _ _ h => by simpa [List.length_set] using h)
    (fun _ _ _ _ h => by simpa [List.length_set] using h)
    fuel segs out i rfl

lemma swallowGo_fst_sorted (asr : List Utt) (fuel : ℕ) (segs : List Seg)
    (out : List ℕ) (i : ℕ) (hs : SortedByStart segs) :
    SortedByStart (swallowGo asr fuel segs out i).1 := by
  refine swallowGo_inv asr SortedByStart ?_ ?_ ?_ fuel segs out i hs
  · intro sg i h0 hi1 h
    have hk : i - 1 < sg.length := by omega
    rw [getD_eq_getElem _ _ hk, getD_eq_getElem _ _ (by omega : i + 1 < sg.length)]
    refine sortedByStart_set_of sg (i - 1) _ ?_ ?_ h
    · intro j hj hjk hj2
      exact sorted_le sg h j (i - 1) hj hk (by omega)
    · intro j hj hjk hj2
      exact sorted_le sg h (i - 1) j hk hj (by omega)
  · intro sg i h0 hi1 h
    have hk : i - 1 < sg.length := by omega
    rw [getD_eq_getElem _ _ hk, getD_eq_getElem _ _ (by omega : i < sg.length)]
    refine sortedByStart_set_of sg (i - 1) _ ?_ ?_ h
    · intro j hj hjk hj2
      exact sorted_le sg h j (i - 1) hj hk (by omega)
    · intro j hj hjk hj2
      exact sorted_le sg h (i - 1) j hk hj (by omega)
  · intro sg i h0 hi1 h
    have hk : i + 1 < sg.length := by omega
    have hki : i < sg.length := by omega
    rw [getD_eq_getElem _ _ hk, getD_eq_getElem _ _ hki]
    refine sortedByStart_set_of sg (i + 1) _ ?_ ?_ h
    · intro j hj hjk hj2
      refine le_min ?_ ?_
      · exact sorted_le sg h j (i + 1) hj hk (by omega)
      · exact sorted_le sg h j i hj hki (by omega)
    · intro j hj hjk hj2
      exact le_trans (min_le_left _ _) (sorted_le sg h (i + 1) j hk hj (by omega))

lemma swallowGo_fst_sorted_pos (asr : List Utt) (fuel : ℕ) (segs : List Seg)
    (out : List ℕ) (i : ℕ) (hs : SortedByStart segs) (hp : PosAll segs) :
    SortedByStart (swallowGo asr fuel segs out i).1 ∧
      PosAll (swallowGo asr fuel segs out i).1 := by
  refine swallowGo_inv asr (fun l => SortedByStart l ∧ PosAll l) ?_ ?_ ?_
    fuel segs out i ⟨hs, hp⟩
  · intro sg i h0 hi1 ⟨h, hpos⟩
    have hk : i - 1 < sg.length := by omega
    have hk1 : i + 1 < sg.length := by omega
    rw [getD_eq_getElem _ _ hk, getD_eq_getElem _ _ hk1]
    constructor
    · refine sortedByStart_set_of sg (i - 1) _ ?_ ?_ h
      · intro j hj hjk hj2
        exact sorted_le sg h j (i - 1) hj hk (by omega)
      · intro j hj hjk hj2
        exact sorted_le sg h (i - 1) j hk hj (by omega)
    · intro t ht
      rcases List.mem_or_eq_of_mem_set ht with ht | rfl
      · exact hpos t ht
      · show sg[i - 1].start < sg[i + 1].stop
        exact lt_of_le_of_lt (sorted_le sg h (i - 1) (i + 1) hk hk1 (by omega))
          (hpos _ (List.getElem_mem hk1))
  · intro sg i h0 hi1 ⟨h, hpos⟩
    have hk : i - 1 < sg.length := by omega
    have hki : i < sg.length := by omega
    rw [getD_eq_getElem _ _ hk, getD_eq_getElem _ _ hki]
    constructor
    · refine sortedByStart_set_of sg (i - 1) _ ?_ ?_ h
      · intro j hj hjk hj2
        exact sorted_le sg h j (i - 1) hj hk (by omega)
      · intro j hj hjk hj2
        exact sorted_le sg h (i - 1) j hk hj (by omega)
    · intro t ht
      rcases List.mem_or_eq_of_mem_set ht with ht | rfl
      · exact hpos t ht
      · show sg[i - 1].start < max sg[i - 1].stop sg[i].stop
        exact lt_of_lt_of_le (hpos _ (List.getElem_mem hk)) (le_max_left _ _)
  · intro sg i h0 hi1 ⟨h, hpos⟩
    have hk : i + 1 < sg.length := by omega
    have hki : i < sg.length := by omega
    rw [getD_eq_getElem _ _ hk, getD_eq_getElem _ _ hki]
    constructor
    · refine sortedByStart_set_of sg (i + 1) _ ?_ ?_ h
      · intro j hj hjk hj2
        refine le_min ?_ ?_
        · exact sorted_le sg h j (i + 1) hj hk (by omega)
        · exact sorted_le sg h j i hj hki (by omega)
      · intro j hj hjk hj2
        exact le_trans (min_le_left _ _) (sorted_le sg h (i + 1) j hk hj (by omega))
    · intro t ht
      rcases List.mem_or_eq_of_mem_set ht with ht | rfl
      · exact hpos t ht
      · show min sg[i + 1].start sg[i].start < sg[i + 1].stop
        exact lt_of_le_of_lt (min_le_left _ _) (hpos _ (List.getElem_mem hk))

lemma swallowGo_fst_inBounds (A B : ℚ) (asr : List Utt) (fuel : ℕ)
    (segs : List Seg) (out : List ℕ) (i : ℕ) (hb : InBounds A B segs) :
    InBounds A B (swallowGo asr fuel segs out i).1 := by
  refine swallowGo_inv asr (InBounds A B) ?_ ?_ ?_ fuel segs out i hb
  · intro sg i h0 hi1 h
    have hk : i - 1 < sg.length := by omega
    have hk1 : i + 1 < sg.length := by omega
    rw [getD_eq_getElem _ _ hk, getD_eq_getElem _ _ hk1]
    intro t ht
    rcases List.mem_or_eq_of_mem_set ht with ht | rfl
    · exact h t ht
    · exact ⟨(h _ (List.getElem_mem hk)).1, (h _ (List.getElem_mem hk1)).2⟩
  · intro sg i h0 hi1 h
    have hk : i - 1 < sg.length := by omega
    have hki : i < sg.length := by omega
    rw [getD_eq_getElem _ _ hk, getD_eq_getElem _ _ hki]
    intro t ht
    rcases List.mem_or_eq_of_mem_set ht with ht | rfl
    · exact h t ht
    · exact ⟨(h _ (List.getElem_mem hk)).1,
        max_le (h _ (List.getElem_mem hk)).2 (h _ (List.getElem_mem hki)).2⟩
  · intro sg i h0 hi1 h
    have hk : i + 1 < sg.length := by omega
    have hki : i < sg.length := by omega
    rw [getD_eq_getElem _ _ hk, getD_eq_getElem _ _ hki]
    intro t ht
    rcases List.mem_or_eq_of_mem_set ht with ht | rfl
    · exact h t ht
    · exact ⟨le_min (h _ (List.getElem_mem hk)).1 (h _ (List.getElem_mem hki)).1,
        (h _ (List.getElem_mem hk)).2⟩

lemma swallowGo_fst_headStart (c : ℚ) (asr : List Utt) (fuel : ℕ)
    (segs : List Seg) (out : List ℕ) (i : ℕ)
    (h : (segs.getD 0 default).start = c) :
    ((swallowGo asr fuel segs out i).1.getD 0 default).start = c := by
  refine swallowGo_inv asr (fun l => (l.getD 0 default).start = c) ?_ ?_ ?_
    fuel segs out i h
  · intro sg i h0 hi1 hc
    by_cases h1 : i = 1
    · have h1' : i - 1 = 0 := by omega
      rw [h1', List.getD_eq_getElem?_getD, List.getElem?_set_self
        (by omega : 0 < sg.length)]
      rw [List.getD_eq_getElem?_getD, List.getElem?_eq_getElem
        (by omega : 0 < sg.length)] at hc
      rw [getD_eq_getElem _ _ (by omega : 0 < sg.length)]
      simpa using hc
    · rw [List.getD_eq_getElem?_getD, List.getElem?_set_ne (by omega : i - 1 ≠ 0),
        ← List.getD_eq_getElem?_getD]
      exact hc
  · intro sg i h0 hi1 hc
    by_cases h1 : i = 1
    · have h1' : i - 1 = 0 := by omega
      rw [h1', List.getD_eq_getElem?_getD, List.getElem?_set_self
        (by omega : 0 < sg.length)]
      rw [List.getD_eq_getElem?_getD, List.getElem?_eq_getElem
        (by omega : 0 < sg.length)] at hc
      rw [getD_eq_getElem _ _ (by omega : 0 < sg.length)]
      simpa using hc
    · rw [List.getD_eq_getElem?_getD, List.getElem?_set_ne (by omega : i - 1 ≠ 0),
        ← List.getD_eq_getElem?_getD]
      exact hc
  · intro sg i h0 hi1 hc
    rw [List.getD_eq_getElem?_getD, List.getElem?_set_ne (by omega : i + 1 ≠ 0),
      ← List.getD_eq_getElem?_getD]
    exact hc

/-! ## Properties of `swallow_intrusions` itself -/

lemma swallow_intrusions_subset_fin (segs : List Seg) (asr : List Utt) :
    ∀ t ∈ swallow_intrusions segs asr,
      t ∈ (swallowGo asr segs.length segs [] 0).1 := by
  intro t ht
  unfold swallow_intrusions at ht
  obtain ⟨j, hj, rfl⟩ := List.mem_map.mp ht
  obtain ⟨extra, he, hpw, hb⟩ := swallowGo_out asr segs.length segs [] 0
  have hjm : j ∈ extra := by
    rw [he] at hj
    simpa using hj
  have hjb : j < (swallowGo asr segs.length segs [] 0).1.length := by
    rw [swallowGo_fst_length]
    exact (hb j hjm).2
  rw [getD_eq_getElem _ _ hjb]
  exact List.getElem_mem hjb

lemma swallow_intrusions_pos (segs : List Seg) (asr : List Utt)
    (hs : SortedByStart segs) (hp : PosAll segs) :
    PosAll (swallow_intrusions segs asr) := fun t ht =>
  (swallowGo_fst_sorted_pos asr segs.length segs [] 0 hs hp).2 t
    (swallow_intrusions_subset_fin segs asr t ht)

lemma swallow_intrusions_inBounds (A B : ℚ) (segs : List Seg) (asr : List Utt)
    (hb : InBounds A B segs) :
    InBounds A B (swallow_intrusions segs asr) := fun t ht =>
  swallowGo_fst_inBounds A B asr segs.length segs [] 0 hb t
    (swallow_intrusions_subset_fin segs asr t ht)

lemma swallow_intrusions_sorted (segs : List Seg) (asr : List Utt)
    (hs : SortedByStart segs) :
    SortedByStart (swallow_intrusions segs asr) := by
  unfold swallow_intrusions
  dsimp only
  obtain ⟨extra, he, hpw, hb⟩ := swallowGo_out asr segs.length segs [] 0
  rw [he]
  simp only [List.nil_append]
  rw [SortedByStart, List.pairwise_map]
  have hsf := swallowGo_fst_sorted asr segs.length segs [] 0 hs
  have hlen := swallowGo_fst_length asr segs.length segs [] 0
  refine hpw.imp_of_mem ?_
  intro a b ha hb' hab
  have haL : a < (swallowGo asr segs.length segs [] 0).1.length := by
    rw [hlen]; exact (hb a ha).2
  have hbL : b < (swallowGo asr segs.length segs [] 0).1.length := by
    rw [hlen]; exact (hb b hb').2
  rw [getD_eq_getElem _ _ haL, getD_eq_getElem _ _ hbL]
  exact sorted_le _ hsf a b haL hbL (le_of_lt hab)

lemma swallow_intrusions_cons (s0 : Seg) (l : List Seg) (asr : List Utt) :
    ∃ t rest, swallow_intrusions (s0 :: l) asr = t :: rest ∧ t.start = s0.start := by
  have hstep : swallowGo asr (s0 :: l).length (s0 :: l) [] 0 =
      swallowGo asr l.length (s0 :: l) [0] 1 := by
    simp only [List.length_cons]
    rw [swallowGo]
    dsimp only
    rw [if_pos (by simp), if_neg (by omega)]
    rfl
  have hslot :
      (((swallowGo asr l.length (s0 :: l) [0] 1).1.getD 0 default)).start = s0.start :=
    swallowGo_fst_headStart s0.start asr l.length (s0 :: l) [0] 1 rfl
  obtain ⟨extra, he, hpw, hb⟩ := swallowGo_out asr l.length (s0 :: l) [0] 1
  refine ⟨(swallowGo asr l.length (s0 :: l) [0] 1).1.getD 0 default,
    extra.map (fun j => (swallowGo asr l.length (s0 :: l) [0] 1).1.getD j default),
    ?_, hslot⟩
  unfold swallow_intrusions
  dsimp only
  rw [hstep, he]
  simp

/-! ## Elementwise predicates through the fold-based passes -/

lemma foldl_mssStep_pred (P : Seg → Prop)
    (hmax : ∀ p s, P p → P s → P { p with stop := max p.stop s.stop }) :
    ∀ (l acc : List Seg), (∀ x ∈ l, P x) → (∀ x ∈ acc, P x) →
      ∀ x ∈ l.foldl mssStep acc, P x := by
  intro l
  induction l with
  | nil => intro acc _ hacc; exact hacc
  | cons s l ih =>
    intro acc hl hacc
    refine ih _ (fun x hx => hl x (List.mem_cons_of_mem _ hx)) ?_
    have hs := hl s (List.mem_cons_self _ _)
    cases acc with
    | nil =>
      intro x hx
      simp only [mssStep, List.mem_singleton] at hx
      exact hx ▸ hs
    | cons prev rest =>
      by_cases hc : s.speaker = prev.speaker ∧ s.start - prev.stop < MIN_GAP_SAME_SPK
      · simp only [mssStep, if_pos hc]
        intro x hx
        rcases List.mem_cons.mp hx with rfl | hx
        · exact hmax prev s (hacc prev (List.mem_cons_self _ _)) hs
        · exact hacc x (List.mem_cons_of_mem _ hx)
      · simp only [mssStep, if_neg hc]
        intro x hx
        rcases List.mem_cons.mp hx with rfl | hx
        · exact hs
        · exact hacc x hx

lemma merge_same_speaker_pred (P : Seg → Prop)
    (hmax : ∀ p s, P p → P s → P { p with stop := max p.stop s.stop })
    (l : List Seg) (hl : ∀ x ∈ l, P x) :
    ∀ x ∈ merge_same_speaker l, P x := by
  intro x hx
  rw [merge_same_speaker, List.mem_reverse] at hx
  exact foldl_mssStep_pred P hmax l [] hl (by simp) x hx

lemma foldl_collarStep_pred (P : Seg → Prop)
    (hmax : ∀ p s, P p → P s → P { p with stop := max p.stop s.stop })
    (hmin : ∀ p s, P p → P s → P { s with start := min s.start p.start }) :
    ∀ (l acc : List Seg), (∀ x ∈ l, P x) → (∀ x ∈ acc, P x) →
      ∀ x ∈ l.foldl collarStep acc, P x := by
  intro l
  induction l with
  | nil => intro acc _ hacc; exact hacc
  | cons s l ih =>
    intro acc hl hacc
    refine ih _ (fun x hx => hl x (List.mem_cons_of_mem _ hx)) ?_
    have hs := hl s (List.mem_cons_self _ _)
    cases acc with
    | nil =>
      intro x hx
      simp only [collarStep, List.mem_singleton] at hx
      exact hx ▸ hs
    | cons prev rest =>
      by_cases hc : s.start - prev.stop < COLLAR
      · by_cases hd : dur s ≤ dur prev
        · simp only [collarStep, if_pos hc, if_pos hd]
          intro x hx
          rcases List.mem_cons.mp hx with rfl | hx
          · exact hmax prev s (hacc prev (List.mem_cons_self _ _)) hs
          · exact hacc x (List.mem_cons_of_mem _ hx)
        · simp only [collarStep, if_pos hc, if_neg hd]
          intro x hx
          rcases List.mem_cons.mp hx with rfl | hx
          · exact hmin prev s (hacc prev (List.mem_cons_self _ _)) hs
          · exact hacc x (List.mem_cons_of_mem _ hx)
      · simp only [collarStep, if_neg hc]
        intro x hx
        rcases List.mem_cons.mp hx with rfl | hx
        · exact hs
        · exact hacc x hx

lemma apply_collar_pred (P : Seg → Prop)
    (hmax : ∀ p s, P p → P s → P { p with stop := max p.stop s.stop })
    (hmin : ∀ p s, P p → P s → P { s with start := min s.start p.start })
    (l out : List Seg) (h : apply_collar l = some out) (hl : ∀ x ∈ l, P x) :
    ∀ x ∈ out, P x := by
  cases l with
  | nil => cases h
  | cons s0 rest =>
    obtain rfl : (rest.foldl collarStep [s0]).reverse = out := by
      rw [apply_collar] at h; injection h
    intro x hx
    rw [List.mem_reverse] at hx
    refine foldl_collarStep_pred P hmax hmin rest [s0]
      (fun y hy => hl y (List.mem_cons_of_mem _ hy)) ?_ x hx
    intro y hy
    rw [List.mem_singleton] at hy
    exact hy ▸ hl s0 (List.mem_cons_self _ _)

lemma foldl_emdStep_pred (P : Seg → Prop)
    (hmax : ∀ p s, P p → P s → P { p with stop := max p.stop s.stop }) :
    ∀ (l acc : List Seg), (∀ x ∈ l, P x) → (∀ x ∈ acc, P x) →
      ∀ x ∈ l.foldl emdStep acc, P x := by
  intro l
  induction l with
  | nil => intro acc _ hacc; exact hacc
  | cons s l ih =>
    intro acc hl hacc
    refine ih _ (fun x hx => hl x (List.mem_cons_of_mem _ hx)) ?_
    have hs := hl s (List.mem_cons_self _ _)
    cases acc with
    | nil =>
      intro x hx
      simp only [emdStep, List.mem_singleton] at hx
      exact hx ▸ hs
    | cons prev rest =>
      by_cases hd : dur s < MIN_SEG_DURATION
      · simp only [emdStep, if_pos hd]
        intro x hx
        rcases List.mem_cons.mp hx with rfl | hx
        · exact hmax prev s (hacc prev (List.mem_cons_self _ _)) hs
        · exact hacc x (List.mem_cons_of_mem _ hx)
      · simp only [emdStep, if_neg hd]
        intro x hx
        rcases List.mem_cons.mp hx with rfl | hx
        · exact hs
        · exact hacc x hx

lemma enforce_min_duration_pred (P : Seg → Prop)
    (hmax : ∀ p s, P p → P s → P { p with stop := max p.stop s.stop })
    (l : List Seg) (hl : ∀ x ∈ l, P x) :
    ∀ x ∈ enforce_min_duration l, P x := by
  intro x hx
  rw [enforce_min_duration, List.mem_reverse] at hx
  exact foldl_emdStep_pred P hmax l [] hl (by simp) x hx

/-- Positivity is closed under the "extend stop by max" update. -/
lemma pos_max_closed (p s : Seg) (hp : p.start < p.stop) (_ : s.start < s.stop) :
    ({ p with stop := max p.stop s.stop } : Seg).start <
      ({ p with stop := max p.stop s.stop } : Seg).stop :=
  lt_of_lt_of_le hp (le_max_left _ _)

/-- Positivity is closed under the "extend start by min" update. -/
lemma pos_min_closed (p s : Seg) (_ : p.start < p.stop) (hs : s.start < s.stop) :
    ({ s with start := min s.start p.start } : Seg).start <
      ({ s with start := min s.start p.start } : Seg).stop :=
  lt_of_le_of_lt (min_le_left _ _) hs

/-! ## Sortedness of `merge_same_speaker`, and head-start preservation -/

lemma foldl_mssStep_sorted :
    ∀ (l acc : List Seg),
      SortedByStart l →
      List.Pairwise (fun a b => b.start ≤ a.start) acc →
      (∀ x ∈ acc, ∀ y ∈ l, x.start ≤ y.start) →
      List.Pairwise (fun a b => b.start ≤ a.start) (l.foldl mssStep acc) := by
  intro l
  induction l with
  | nil => intro acc _ hacc _; exact hacc
  | cons s l ih =>
    intro acc hsort hacc hcross
    rw [SortedByStart, List.pairwise_cons] at hsort
    refine ih (mssStep acc s) hsort.2 ?_ ?_
    · cases acc with
      | nil => simp [mssStep]
      | cons prev rest =>
        by_cases hc : s.speaker = prev.speaker ∧ s.start - prev.stop < MIN_GAP_SAME_SPK
        · simp only [mssStep, if_pos hc]
          rw [List.pairwise_cons] at hacc ⊢
          exact ⟨hacc.1, hacc.2⟩
        · simp only [mssStep, if_neg hc]
          rw [List.pairwise_cons]
          exact ⟨fun y hy => hcross y hy s (List.mem_cons_self _ _), hacc⟩
    · cases acc with
      | nil =>
        intro x hx y hy
        simp only [mssStep, List.mem_singleton] at hx
        exact hx ▸ hsort.1 y hy
      | cons prev rest =>
        by_cases hc : s.speaker = prev.speaker ∧ s.start - prev.stop < MIN_GAP_SAME_SPK
        · simp only [mssStep, if_pos hc]
          intro x hx y hy
          rcases List.mem_cons.mp hx with rfl | hx
          · exact hcross prev (List.mem_cons_self _ _) y (List.mem_cons_of_mem _ hy)
          · exact hcross x (List.mem_cons_of_mem _ hx) y (List.mem_cons_of_mem _ hy)
        · simp only [mssStep, if_neg hc]
          intro x hx y hy
          rcases List.mem_cons.mp hx with rfl | hx
          · exact hsort.1 y hy
          · exact hcross x hx y (List.mem_cons_of_mem _ hy)

lemma merge_same_speaker_sorted (l : List Seg) (h : SortedByStart l) :
    SortedByStart (merge_same_speaker l) := by
  rw [merge_same_speaker, SortedByStart, List.pairwise_reverse]
  exact foldl_mssStep_sorted l [] h (by simp) (by simp)

lemma getLast?_start_cons (a b : Seg) (l : List Seg)
    (hstart : a.start = b.start) :
    ((a :: l).getLast?.map Seg.start) = ((b :: l).getLast?.map Seg.start) := by
  cases l with
  | nil => simp [hstart]
  | cons c l => simp [List.getLast?_cons_cons]

lemma foldl_mssStep_getLast_start :
    ∀ (l acc : List Seg), acc ≠ [] →
      ((l.foldl mssStep acc).getLast?.map Seg.start) =
        (acc.getLast?.map Seg.start) := by
  intro l
  induction l with
  | nil => intro acc _; rfl
  | cons s l ih =>
    intro acc hne
    rw [List.foldl_cons, ih _ (mssStep_ne_nil acc s)]
    cases acc with
    | nil => exact absurd rfl hne
    | cons prev rest =>
      by_cases hc : s.speaker = prev.speaker ∧ s.start - prev.stop < MIN_GAP_SAME_SPK
      · simp only [mssStep, if_pos hc]
        exact getLast?_start_cons _ _ _ rfl
      · simp only [mssStep, if_neg hc]
        rw [List.getLast?_cons_cons]

lemma merge_same_speaker_head_start (s0 : Seg) (l : List Seg) :
    ∃ t rest, merge_same_speaker (s0 :: l) = t :: rest ∧ t.start = s0.start := by
  have hne := merge_same_speaker_ne_nil s0 l
  obtain ⟨t, rest, ht⟩ := List.exists_cons_of_ne_nil hne
  refine ⟨t, rest, ht, ?_⟩
  have h1 : (merge_same_speaker (s0 :: l)).head?.map Seg.start = some t.start := by
    rw [ht]; rfl
  rw [merge_same_speaker, List.head?_reverse, List.foldl_cons] at h1
  have h2 := foldl_mssStep_getLast_start l (mssStep [] s0) (mssStep_ne_nil _ _)
  rw [h2] at h1
  simp only [mssStep] at h1
  simp at h1
  exact h1.symm

lemma emdStep_ne_nil (out : List Seg) (s : Seg) : emdStep out s ≠ [] := by
  cases out with
  | nil => simp [emdStep]
  | cons prev rest =>
    by_cases h : dur s < MIN_SEG_DURATION <;> simp [emdStep, h]

lemma foldl_emdStep_getLast_start :
    ∀ (l acc : List Seg), acc ≠ [] →
      ((l.foldl emdStep acc).getLast?.map Seg.start) =
        (acc.getLast?.map Seg.start) := by
  intro l
  induction l with
  | nil => intro acc _; rfl
  | cons s l ih =>
    intro acc hne
    rw [List.foldl_cons, ih _ (emdStep_ne_nil acc s)]
    cases acc with
    | nil => exact absurd rfl hne
    | cons prev rest =>
      by_cases hc : dur s < MIN_SEG_DURATION
      · simp only [emdStep, if_pos hc]
        exact getLast?_start_cons _ _ _ rfl
      · simp only [emdStep, if_neg hc]
        rw [List.getLast?_cons_cons]

lemma foldl_emdStep_ne_nil (l acc : List Seg) (h : acc ≠ []) :
    l.foldl emdStep acc ≠ [] := by
  induction l generalizing acc with
  | nil => exact h
  | cons s l ih => exact ih _ (emdStep_ne_nil _ _)

lemma enforce_min_duration_ne_nil (s0 : Seg) (l : List Seg) :
    enforce_min_duration (s0 :: l) ≠ [] := by
  unfold enforce_min_duration
  intro h
  rw [List.reverse_eq_nil_iff, List.foldl_cons] at h
  have := foldl_emdStep_ne_nil l (emdStep [] s0) (emdStep_ne_nil _ _)
  exact this h

lemma enforce_min_duration_head_start (s0 : Seg) (l : List Seg) :
    ∃ t rest, enforce_min_duration (s0 :: l) = t :: rest ∧ t.start = s0.start := by
  have hne := enforce_min_duration_ne_nil s0 l
  obtain ⟨t, rest, ht⟩ := List.exists_cons_of_ne_nil hne
  refine ⟨t, rest, ht, ?_⟩
  have h1 : (enforce_min_duration (s0 :: l)).head?.map Seg.start = some t.start := by
    rw [ht]; rfl
  rw [enforce_min_duration, List.head?_reverse, List.foldl_cons] at h1
  rw [foldl_emdStep_getLast_start l (emdStep [] s0) (emdStep_ne_nil _ _)] at h1
  simp only [emdStep] at h1
  simp at h1
  exact h1.symm

lemma collarStep_ne_nil (out : List Seg) (s : Seg) : collarStep out s ≠ [] := by
  cases out with
  | nil => simp [collarStep]
  | cons prev rest =>
    by_cases hc : s.start - prev.stop < COLLAR
    · by_cases hd : dur s ≤ dur prev <;> simp [collarStep, hc, hd]
    · simp [collarStep, hc]

lemma foldl_collarStep_ne_nil (l acc : List Seg) (h : acc ≠ []) :
    l.foldl collarStep acc ≠ [] := by
  induction l generalizing acc with
  | nil => exact h
  | cons s l ih => exact ih _ (collarStep_ne_nil _ _)

lemma foldl_collarStep_getLast_start :
    ∀ (l acc : List Seg) (c : ℚ), acc ≠ [] →
      (acc.getLast?.map Seg.start) = some c →
      (∀ s ∈ l, c ≤ s.start) →
      ((l.foldl collarStep acc).getLast?.map Seg.start) = some c := by
  intro l
  induction l with
  | nil => intro acc c _ hlast _; exact hlast
  | cons s l ih =>
    intro acc c hne hlast hge
    rw [List.foldl_cons]
    refine ih _ c (collarStep_ne_nil _ _) ?_
      (fun y hy => hge y (List.mem_cons_of_mem _ hy))
    cases acc with
    | nil => exact absurd rfl hne
    | cons prev rest =>
      by_cases hc : s.start - prev.stop < COLLAR
      · by_cases hd : dur s ≤ dur prev
        · simp only [collarStep, if_pos hc, if_pos hd]
          rw [getLast?_start_cons { prev with stop := max prev.stop s.stop } prev rest rfl]
          exact hlast
        · simp only [collarStep, if_pos hc, if_neg hd]
          cases rest with
          | nil =>
            simp only [List.getLast?_singleton, Option.map_some] at hlast ⊢
            have hcs : c ≤ s.start := hge s (List.mem_cons_self _ _)
            have hprev : prev.start = c := by injection hlast
            show some (min s.start prev.start) = some c
            rw [hprev, min_eq_right hcs]
          | cons b rest' =>
            rw [List.getLast?_cons_cons] at hlast ⊢
            exact hlast
      · simp only [collarStep, if_neg hc]
        rw [List.getLast?_cons_cons]
        exact hlast

lemma apply_collar_head_start (s0 : Seg) (l : List Seg)
    (hs : SortedByStart (s0 :: l)) :
    ∃ t rest, apply_collar (s0 :: l) = some (t :: rest) ∧ t.start = s0.start := by
  have hne : l.foldl collarStep [s0] ≠ [] :=
    foldl_collarStep_ne_nil l [s0] (by simp)
  have hrev : (l.foldl collarStep [s0]).reverse ≠ [] :=
    fun h => hne (List.reverse_eq_nil_iff.mp h)
  obtain ⟨t, rest, ht⟩ := List.exists_cons_of_ne_nil hrev
  refine ⟨t, rest, ?_, ?_⟩
  · rw [apply_collar, ht]
  · rw [SortedByStart, List.pairwise_cons] at hs
    have hlast := foldl_collarStep_getLast_start l [s0] s0.start (by simp)
      (by simp) (fun y hy => hs.1 y hy)
    have h1 : (l.foldl collarStep [s0]).reverse.head?.map Seg.start = some t.start := by
      rw [ht]; rfl
    rw [List.head?_reverse, hlast] at h1
    injection h1 with h1
    exact h1.symm

/-- The window bounds are closed under the "extend stop by max" update. -/
lemma bounds_max_closed (A B : ℚ) (p s : Seg)
    (hp : A ≤ p.start ∧ p.stop ≤ B) (hs : A ≤ s.start ∧ s.stop ≤ B) :
    A ≤ ({ p with stop := max p.stop s.stop } : Seg).start ∧
      ({ p with stop := max p.stop s.stop } : Seg).stop ≤ B :=
  ⟨hp.1, max_le hp.2 hs.2⟩

/-- The window bounds are closed under the "extend start by min" update. -/
lemma bounds_min_closed (A B : ℚ) (p s : Seg)
    (hp : A ≤ p.start ∧ p.stop ≤ B) (hs : A ≤ s.start ∧ s.stop ≤ B) :
    A ≤ ({ s with start := min s.start p.start } : Seg).start ∧
      ({ s with start := min s.start p.start } : Seg).stop ≤ B :=
  ⟨le_min hs.1 hp.1, hs.2⟩

/-- C10: on every non-empty input sorted by start whose turns all have
`end > start`, every turn in the output of each individual pass — the
first merge, the intrusion swallower, the collar pass (which succeeds),
the min-duration pass and the final merge (which is the full pipeline's
output) — again has strictly positive duration. -/
theorem pipeline_positive_durations (segs : List Seg) (asr : List Utt)
    (hne : segs ≠ []) (hs : SortedByStart segs) (hp : PosAll segs) :
    PosAll (merge_same_speaker segs) ∧
    PosAll (swallow_intrusions (merge_same_speaker segs) asr) ∧
    ∃ s3, apply_collar (swallow_intrusions (merge_same_speaker segs) asr) = some s3 ∧
      PosAll s3 ∧ PosAll (enforce_min_duration s3) ∧
      smooth_pipeline segs asr = some (merge_same_speaker (enforce_min_duration s3)) ∧
      PosAll (merge_same_speaker (enforce_min_duration s3)) := by
  obtain ⟨s0, rest, rfl⟩ := List.exists_cons_of_ne_nil hne
  have h1pos : PosAll (merge_same_speaker (s0 :: rest)) :=
    merge_same_speaker_pred (fun t => t.start < t.stop) pos_max_closed _ hp
  have h1sorted := merge_same_speaker_sorted _ hs
  have h2pos := swallow_intrusions_pos _ asr h1sorted h1pos
  obtain ⟨t1, r1, he1⟩ :=
    List.exists_cons_of_ne_nil (merge_same_speaker_ne_nil s0 rest)
  obtain ⟨t2, r2, he2, _⟩ := swallow_intrusions_cons t1 r1 asr
  have he2' : swallow_intrusions (merge_same_speaker (s0 :: rest)) asr = t2 :: r2 := by
    rw [he1, he2]
  have hcol : apply_collar (swallow_intrusions (merge_same_speaker (s0 :: rest)) asr) =
      some ((r2.foldl collarStep [t2]).reverse) := by
    rw [he2', apply_collar]
  have h3pos : PosAll ((r2.foldl collarStep [t2]).reverse) :=
    apply_collar_pred (fun t => t.start < t.stop) pos_max_closed pos_min_closed
      _ _ hcol h2pos
  have h4pos : PosAll (enforce_min_duration ((r2.foldl collarStep [t2]).reverse)) :=
    enforce_min_duration_pred (fun t => t.start < t.stop) pos_max_closed _ h3pos
  refine ⟨h1pos, h2pos, (r2.foldl collarStep [t2]).reverse, hcol, h3pos, h4pos, ?_, ?_⟩
  · rw [smooth_pipeline, hcol]
  · exact merge_same_speaker_pred (fun t => t.start < t.stop) pos_max_closed _ h4pos

/-- Witness for C10 at a concrete input. -/
theorem pipeline_positive_durations_witness :
    ([⟨"1", 0, 3⟩] : List Seg) ≠ [] ∧ SortedByStart [⟨"1", 0, 3⟩] ∧
      PosAll [⟨"1", 0, 3⟩] ∧
      (PosAll (merge_same_speaker [⟨"1", 0, 3⟩]) ∧
        PosAll (swallow_intrusions (merge_same_speaker [⟨"1", 0, 3⟩]) []) ∧
        ∃ s3, apply_collar (swallow_intrusions (merge_same_speaker [⟨"1", 0, 3⟩]) []) =
            some s3 ∧
          PosAll s3 ∧ PosAll (enforce_min_duration s3) ∧
          smooth_pipeline [⟨"1", 0, 3⟩] [] =
            some (merge_same_speaker (enforce_min_duration s3)) ∧
          PosAll (merge_same_speaker (enforce_min_duration s3))) :=
  ⟨by simp,
    by with_unfolding_all exact of_decide_eq_true rfl,
    by with_unfolding_all exact of_decide_eq_true rfl,
    pipeline_positive_durations [⟨"1", 0, 3⟩] [] (by simp)
      (by with_unfolding_all exact of_decide_eq_true rfl)
      (by with_unfolding_all exact of_decide_eq_true rfl)⟩

/-- C4 counterexample: a nested short intrusion makes the swallower
execute `left.end = right.end` with `right.end < left.end`, truncating
total coverage — the input reaches time 10, every output turn ends
strictly before 10, and no collar or min-duration absorption is
involved (the swallow happens with `left.speaker == right.speaker`).
This falsifies "no pass truncates total coverage / only the collar and
min-duration passes can shrink a span". -/
theorem pipeline_coverage_truncation_counterexample :
    SortedByStart [⟨"1", 0, 10⟩, ⟨"2", 1, 2⟩, ⟨"1", 2, 3⟩] ∧
    PosAll [⟨"1", 0, 10⟩, ⟨"2", 1, 2⟩, ⟨"1", 2, 3⟩] ∧
    smooth_pipeline [⟨"1", 0, 10⟩, ⟨"2", 1, 2⟩, ⟨"1", 2, 3⟩] [] = some [⟨"1", 0, 3⟩] ∧
    (∃ t ∈ ([⟨"1", 0, 10⟩, ⟨"2", 1, 2⟩, ⟨"1", 2, 3⟩] : List Seg), t.stop = 10) ∧
    (∀ t ∈ ([(⟨"1", 0, 3⟩ : Seg)] : List Seg), t.stop < 10) := by
  refine ⟨?_, ?_, ?_, ?_, ?_⟩
  · with_unfolding_all exact of_decide_eq_true rfl
  · with_unfolding_all exact of_decide_eq_true rfl
  · with_unfolding_all exact of_decide_eq_true rfl
  · with_unfolding_all exact of_decide_eq_true rfl
  · with_unfolding_all exact of_decide_eq_true rfl

/-- C4 (amended): on a non-empty input sorted by start, the pipeline
output never extends outside the original input bounds — the first
output turn starts exactly where the first input turn does, and every
output turn stays inside any window `[A, B]` containing all input
turns.  (Coverage is NOT non-decreasing: the swallower's
`left.end = right.end` rule can also truncate it, see the
counterexample.) -/
theorem pipeline_span_within_bounds (segs : List Seg) (asr : List Utt)
    (out : List Seg) (A B : ℚ) (hne : segs ≠ []) (hs : SortedByStart segs)
    (hb : InBounds A B segs) (h : smooth_pipeline segs asr = some out) :
    (out.head?.map Seg.start) = (segs.head?.map Seg.start) ∧ InBounds A B out := by
  obtain ⟨s0, rest, rfl⟩ := List.exists_cons_of_ne_nil hne
  obtain ⟨t1, r1, he1, hst1⟩ := merge_same_speaker_head_start s0 rest
  have h1sorted := merge_same_speaker_sorted _ hs
  have h1b : InBounds A B (merge_same_speaker (s0 :: rest)) :=
    merge_same_speaker_pred _ (bounds_max_closed A B) _ hb
  obtain ⟨t2, r2, he2, hst2⟩ := swallow_intrusions_cons t1 r1 asr
  have he2' : swallow_intrusions (merge_same_speaker (s0 :: rest)) asr = t2 :: r2 := by
    rw [he1, he2]
  have h2sorted : SortedByStart (t2 :: r2) := by
    rw [← he2']
    exact swallow_intrusions_sorted _ asr h1sorted
  have h2b : InBounds A B (t2 :: r2) := by
    rw [← he2']
    exact swallow_intrusions_inBounds A B _ asr h1b
  obtain ⟨t3, r3, he3, hst3⟩ := apply_collar_head_start t2 r2 h2sorted
  have h3b : InBounds A B (t3 :: r3) :=
    apply_collar_pred _ (bounds_max_closed A B) (bounds_min_closed A B)
      _ _ he3 h2b
  obtain ⟨t4, r4, he4, hst4⟩ := enforce_min_duration_head_start t3 r3
  have h4b : InBounds A B (t4 :: r4) := by
    rw [← he4]
    exact enforce_min_duration_pred _ (bounds_max_closed A B) _ h3b
  obtain ⟨t5, r5, he5, hst5⟩ := merge_same_speaker_head_start t4 r4
  have h5b : InBounds A B (t5 :: r5) := by
    rw [← he5]
    exact merge_same_speaker_pred _ (bounds_max_closed A B) _ h4b
  have hout : out = t5 :: r5 := by
    rw [smooth_pipeline, he2', he3] at h
    dsimp only at h
    rw [he4, he5] at h
    injection h with h
    exact h.symm
  subst hout
  constructor
  · show some t5.start = some s0.start
    rw [hst5, hst4, hst3, hst2, hst1]
  · exact h5b

/-- Witness for the amended C4 at a concrete input. -/
theorem pipeline_span_within_bounds_witness :
    ([⟨"1", 0, 3⟩] : List Seg) ≠ [] ∧ SortedByStart [⟨"1", 0, 3⟩] ∧
      InBounds 0 3 [⟨"1", 0, 3⟩] ∧
      ((([⟨"1", 0, 3⟩] : List Seg).head?.map Seg.start) =
          (([⟨"1", 0, 3⟩] : List Seg).head?.map Seg.start) ∧
        InBounds 0 3 [⟨"1", 0, 3⟩]) :=
  ⟨by simp,
    by with_unfolding_all exact of_decide_eq_true rfl,
    by with_unfolding_all exact of_decide_eq_true rfl,
    pipeline_span_within_bounds [⟨"1", 0, 3⟩] [] [⟨"1", 0, 3⟩] 0 3 (by simp)
      (by with_unfolding_all exact of_decide_eq_true rfl)
      (by with_unfolding_all exact of_decide_eq_true rfl)
      (by with_unfolding_all exact of_decide_eq_true rfl)⟩
